import Mathlib

/-!
Verification of the npmrc-config-rs configuration/credential resolution core.

The Rust sources are shallowly embedded: Rust String becomes Lean String
(with most scanning performed over List Char via String.data), HashMap
becomes an association list with last-insert-wins update semantics,
Result/Option-valued fallible operations become Option, and the ambient
process state read by the code (environment variables in
parser.rs::expand_env_vars, the home directory in paths.rs::expand_tilde)
is passed as an explicit argument.  The base64 crate's STANDARD engine and
Rust's String::from_utf8, used by auth.rs, are modelled by executable
codecs below.
-/

namespace Npmrc

/-! ## Generic character-list helpers -/

/-- Whitespace predicate used for trimming (mirrors the ASCII whitespace
that str::trim removes on the characters occurring in npmrc files). -/
def isWs (c : Char) : Bool := c = ' ' || c = '\t' || c = '\n' || c = '\r'

/-- Trim whitespace from both ends of a character list (str::trim). -/
def trimChars (cs : List Char) : List Char :=
  ((cs.dropWhile isWs).reverse.dropWhile isWs).reverse

/-- Fuel-driven core of splitOnChar; each step consumes at least two
characters past the separator, so fuel equal to the input length always
suffices and the fuel-exhausted fallback is unreachable. -/
def splitOnCharAux (sep : Char) : Nat → List Char → List (List Char)
  | 0, cs => [cs]
  | fuel + 1, cs =>
    match cs.dropWhile (fun c => c ≠ sep) with
    | [] => [cs.takeWhile (fun c => c ≠ sep)]
    | _ :: tail => cs.takeWhile (fun c => c ≠ sep) :: splitOnCharAux sep fuel tail

/-- Split a character list at every occurrence of the separator
(str::lines via splitting on a newline; the separators are dropped). -/
def splitOnChar (sep : Char) (cs : List Char) : List (List Char) :=
  splitOnCharAux sep cs.length cs

/-! ## Base64 (model of the base64 crate's STANDARD engine)

The encoder emits the canonical padded form; the decoder is strict like
base64::engine::general_purpose::STANDARD: it requires canonical padding,
a multiple-of-four length, and zero trailing bits in the final quantum. -/

def b64Alphabet : List Char :=
  "ABCDEFGHIJKLMNOPQRSTUVWXYZabcdefghijklmnopqrstuvwxyz0123456789+/".data

/-- Character for a six-bit group. -/
def b64Char (n : Nat) : Char := b64Alphabet.getD n 'A'

/-- Index of a character in the base64 alphabet, none for non-alphabet
characters (in particular the padding character). -/
def b64Index (c : Char) : Option Nat := b64Alphabet.findIdx? (fun d => d = c)

/-- Base64-encode a byte list (bytes are Nat values below 256). -/
def b64Encode : List Nat → List Char
  | [] => []
  | [b0] =>
      [b64Char (b0 / 4), b64Char (b0 % 4 * 16), '=', '=']
  | [b0, b1] =>
      [b64Char (b0 / 4), b64Char (b0 % 4 * 16 + b1 / 16), b64Char (b1 % 16 * 4), '=']
  | b0 :: b1 :: b2 :: rest =>
      b64Char (b0 / 4) :: b64Char (b0 % 4 * 16 + b1 / 16) ::
        b64Char (b1 % 16 * 4 + b2 / 64) :: b64Char (b2 % 64) :: b64Encode rest

/-- Decode the final (possibly padded) base64 quantum; trailing bits that
are set make the strict decoder reject the input. -/
def b64DecodeLast (c0 c1 c2 c3 : Char) : Option (List Nat) :=
  match b64Index c0, b64Index c1 with
  | some s0, some s1 =>
    if c2 = '=' then
      if c3 = '=' then
        if s1 % 16 = 0 then some [s0 * 4 + s1 / 16] else none
      else none
    else
      match b64Index c2 with
      | some s2 =>
        if c3 = '=' then
          if s2 % 4 = 0 then some [s0 * 4 + s1 / 16, s1 % 16 * 16 + s2 / 4] else none
        else
          match b64Index c3 with
          | some s3 => some [s0 * 4 + s1 / 16, s1 % 16 * 16 + s2 / 4, s2 % 4 * 64 + s3]
          | none => none
      | none => none
  | _, _ => none

/-- Strict base64 decoding of a character list into bytes. -/
def b64Decode : List Char → Option (List Nat)
  | [] => some []
  | c0 :: c1 :: c2 :: c3 :: rest =>
    if rest.isEmpty then b64DecodeLast c0 c1 c2 c3
    else
      match b64Index c0, b64Index c1, b64Index c2, b64Index c3 with
      | some s0, some s1, some s2, some s3 =>
        (b64Decode rest).map
          (fun tail => (s0 * 4 + s1 / 16) :: (s1 % 16 * 16 + s2 / 4) :: (s2 % 4 * 64 + s3) :: tail)
      | _, _, _, _ => none
  | _ => none

/-! ## UTF-8 (model of Rust's String::from_utf8 and the UTF-8 bytes of a
Rust String) -/

/-- UTF-8 encoding of one Unicode scalar value. -/
def utf8EncodeChar (c : Char) : List Nat :=
  if c.toNat < 0x80 then [c.toNat]
  else if c.toNat < 0x800 then [0xC0 + c.toNat / 64, 0x80 + c.toNat % 64]
  else if c.toNat < 0x10000 then
    [0xE0 + c.toNat / 4096, 0x80 + c.toNat / 64 % 64, 0x80 + c.toNat % 64]
  else
    [0xF0 + c.toNat / 262144, 0x80 + c.toNat / 4096 % 64, 0x80 + c.toNat / 64 % 64,
      0x80 + c.toNat % 64]

/-- UTF-8 bytes of a character list. -/
def utf8Encode (cs : List Char) : List Nat := (cs.map utf8EncodeChar).flatten

/-- Continuation-byte test. -/
def isCont (b : Nat) : Bool := 0x80 ≤ b && b < 0xC0

/-- Decode one scalar value from the head of a UTF-8 byte stream,
returning the character and the remaining bytes; strict like Rust's
String::from_utf8, it rejects overlong forms, surrogates, out-of-range
scalars, and truncated sequences. -/
def utf8DecodeOne : List Nat → Option (Char × List Nat)
  | [] => none
  | b0 :: rest =>
    if b0 < 0x80 then some (Char.ofNat b0, rest)
    else if b0 < 0xC2 then none
    else if b0 < 0xE0 then
      match rest with
      | b1 :: rest2 =>
        if isCont b1 then some (Char.ofNat ((b0 - 0xC0) * 64 + (b1 - 0x80)), rest2)
        else none
      | [] => none
    else if b0 < 0xF0 then
      match rest with
      | b1 :: b2 :: rest3 =>
        if isCont b1 && isCont b2 then
          if (b0 - 0xE0) * 4096 + (b1 - 0x80) * 64 + (b2 - 0x80) < 0x800 then none
          else if 0xD800 ≤ (b0 - 0xE0) * 4096 + (b1 - 0x80) * 64 + (b2 - 0x80) ∧
              (b0 - 0xE0) * 4096 + (b1 - 0x80) * 64 + (b2 - 0x80) ≤ 0xDFFF then none
          else some (Char.ofNat ((b0 - 0xE0) * 4096 + (b1 - 0x80) * 64 + (b2 - 0x80)), rest3)
        else none
      | _ => none
    else if b0 < 0xF5 then
      match rest with
      | b1 :: b2 :: b3 :: rest4 =>
        if isCont b1 && isCont b2 && isCont b3 then
          if (b0 - 0xF0) * 262144 + (b1 - 0x80) * 4096 + (b2 - 0x80) * 64 + (b3 - 0x80)
              < 0x10000 then none
          else if 0x110000 ≤ (b0 - 0xF0) * 262144 + (b1 - 0x80) * 4096 + (b2 - 0x80) * 64
              + (b3 - 0x80) then none
          else some (Char.ofNat ((b0 - 0xF0) * 262144 + (b1 - 0x80) * 4096 + (b2 - 0x80) * 64
              + (b3 - 0x80)), rest4)
        else none
      | _ => none
    else none

/-- Fuel-driven core of utf8Decode; every scalar consumes at least one
byte, so fuel equal to the byte count always suffices and the
fuel-exhausted fallback is unreachable. -/
def utf8DecodeAux : Nat → List Nat → Option (List Char)
  | 0, bs => if bs.isEmpty then some [] else none
  | fuel + 1, bs =>
    match utf8DecodeOne bs with
    | none => if bs.isEmpty then some [] else none
    | some (c, rest) => (utf8DecodeAux fuel rest).map (fun cs => c :: cs)

/-- Strict UTF-8 decoding of a whole byte list
(model of String::from_utf8). -/
def utf8Decode (bs : List Nat) : Option (List Char) :=
  utf8DecodeAux bs.length bs

/-! ## Environment-variable expansion (parser.rs::expand_env_vars)

The Rust code applies Regex::replace_all with the pattern
(?P<esc>\\*)\$\{(?P<name>[^${}?]+)(?P<mod>\?)?\} to the value.  The
scanner below reproduces the leftmost, non-overlapping match semantics of
replace_all: at each position it attempts the anchored pattern (a greedy
run of backslashes, then the dollar-brace variable reference) and on
failure emits one character and moves on.  Replacement text is never
rescanned, matching replace_all. -/

/-- Environment lookup (model of std::env::var, absent or non-unicode
variables are none). -/
def Env : Type := String → Option String

/-- Character allowed inside a variable name: the regex class excluding
the dollar sign, both braces and the question mark. -/
def nameChar (c : Char) : Bool := c ≠ '$' && c ≠ '{' && c ≠ '}' && c ≠ '?'

/-- Attempt the regex at the head of the input.  On success returns the
backslash-run length, the variable name, whether the optional-modifier
question mark was present, and the unconsumed remainder. -/
def tryMatch (s : List Char) : Option (Nat × List Char × Bool × List Char) :=
  match s.dropWhile (fun c => c = '\\') with
  | '$' :: '{' :: s2 =>
    if (s2.takeWhile nameChar).isEmpty then none
    else
      match s2.dropWhile nameChar with
      | '}' :: s4 =>
          some ((s.takeWhile (fun c => c = '\\')).length, s2.takeWhile nameChar, false, s4)
      | '?' :: '}' :: s4 =>
          some ((s.takeWhile (fun c => c = '\\')).length, s2.takeWhile nameChar, true, s4)
      | _ => none
  | _ => none

/-- Replacement text for one match, mirroring the closure passed to
replace_all in expand_env_vars: an odd backslash run escapes the dollar
sign and keeps the literal reference (with half the backslashes); an even
run emits half the backslashes and then the value, or the literal
reference when the variable is unset without the modifier, or nothing
when unset with the modifier. -/
def replacementFor (env : Env) (escLen : Nat) (name : List Char) (hasMod : Bool) :
    List Char :=
  let kept := List.replicate (escLen / 2) '\\'
  if escLen % 2 = 1 then
    kept ++ '$' :: '{' :: name ++ (if hasMod then ['?', '}'] else ['}'])
  else
    match env (String.mk name) with
    | some v => kept ++ v.data
    | none =>
      if hasMod then kept
      else kept ++ '$' :: '{' :: name ++ ['}']

/-- Remainder returned by tryMatch is strictly shorter than the input. -/
def tryMatchConsumes : ∀ (s : List Char) (k : Nat) (nm : List Char) (m : Bool)
    (rem : List Char), tryMatch s = some (k, nm, m, rem) → rem.length < s.length := by
  intro s k nm m rem h
  unfold tryMatch at h
  have hsplit := List.takeWhile_append_dropWhile (fun c => decide (c = '\\')) s
  split at h
  next s2 heq =>
    have hlen : 2 + s2.length ≤ s.length := by
      have hl := congrArg List.length hsplit
      rw [heq] at hl
      simp only [List.length_append, List.length_cons] at hl
      omega
    have hs2 := List.takeWhile_append_dropWhile nameChar s2
    have hl := congrArg List.length hs2
    split at h
    · exact absurd h (by simp)
    · split at h
      next s4 heq2 =>
        cases h
        rw [heq2] at hl
        simp only [List.length_append, List.length_cons] at hl
        omega
      next s4 heq2 =>
        cases h
        rw [heq2] at hl
        simp only [List.length_append, List.length_cons] at hl
        omega
      next => exact absurd h (by simp)
  next => exact absurd h (by simp)

/-- Fuel-driven core of the replace_all scanner; every match consumes at
least four characters and every failure one, so fuel equal to the input
length always suffices and the fuel-exhausted fallback is unreachable. -/
def scanExpandAux (env : Env) : Nat → List Char → List Char
  | 0, s => s
  | fuel + 1, s =>
    match s with
    | [] => []
    | c :: rest =>
      match tryMatch (c :: rest) with
      | some (k, name, hasMod, rem) =>
          replacementFor env k name hasMod ++ scanExpandAux env fuel rem
      | none => c :: scanExpandAux env fuel rest

/-- Scanner core of expand_env_vars over the characters of the value. -/
def scanExpand (env : Env) (s : List Char) : List Char :=
  scanExpandAux env s.length s

/-- Expand dollar-brace environment-variable references in a value
(parser.rs::expand_env_vars). -/
def expand_env_vars (env : Env) (value : String) : String :=
  String.mk (scanExpand env value.data)

/-! ## npmrc parsing (parser.rs::parse_npmrc) -/

/-- Key-value store of one parsed file (model of HashMap<String, String>;
lookup takes the first matching entry and insertion removes any previous
entry for the key). -/
abbrev RawConfigMap : Type := List (String × String)

/-- HashMap::get. -/
def mapGet (m : RawConfigMap) (k : String) : Option String :=
  match m with
  | [] => none
  | (k2, v) :: rest => if k2 = k then some v else mapGet rest k

/-- HashMap::insert (overwrites an existing entry for the key). -/
def mapInsert (m : RawConfigMap) (k v : String) : RawConfigMap :=
  (k, v) :: List.filter (fun p => p.1 ≠ k) m

/-- Process one physical line of an npmrc file, mirroring the body of the
loop in parse_npmrc: trim, skip empty lines and full-line comments, split
at the first equals sign, skip empty keys, trim key and value, expand
environment references in the value, insert with last-wins. -/
def processLine (env : Env) (acc : RawConfigMap) (line0 : List Char) : RawConfigMap :=
  let line := trimChars line0
  if line.isEmpty then acc
  else if line.head? = some '#' || line.head? = some ';' then acc
  else
    match line.findIdx? (fun c => c = '=') with
    | none => acc
    | some eqPos =>
      let key := trimChars (line.take eqPos)
      let value := trimChars (line.drop (eqPos + 1))
      if key.isEmpty then acc
      else mapInsert acc (String.mk key) (expand_env_vars env (String.mk value))

/-- Parse npmrc INI content into key-value pairs
(parser.rs::parse_npmrc).  The Rust function returns Result but its body
never produces an error; the Except wrapper mirrors the signature. -/
def parse_npmrc (env : Env) (content : String) : Except String RawConfigMap :=
  Except.ok ((splitOnChar '\n' content.data).foldl (processLine env) [])

/-! ## URLs (model of the url crate as used by this code)

Only the accessors the sources consume are modelled: scheme, username
(userinfo), host_str, port (already elided to none when it equals the
scheme's default port, which is what url::Url::port returns), the serialized
path, query and fragment. -/

structure Url where
  scheme : String
  username : String
  host : Option String
  /-- Port, none when absent or equal to the scheme's default (this is
  the value url::Url::port reports). -/
  port : Option Nat
  path : String
  query : Option String
  fragment : Option String
deriving DecidableEq

/-- Fuel-driven core of natToChars; the value shrinks by a factor of ten
each step, so fuel equal to the value always suffices. -/
def natToCharsAux : Nat → Nat → List Char
  | 0, n => [Char.ofNat (48 + n % 10)]
  | fuel + 1, n =>
    if n < 10 then [Char.ofNat (48 + n % 10)]
    else natToCharsAux fuel (n / 10) ++ [Char.ofNat (48 + n % 10)]

/-- Decimal digits of a number (for serializing a port). -/
def natToChars (n : Nat) : List Char :=
  natToCharsAux n n

/-- Default port of a scheme known to the url crate. -/
def defaultPort (scheme : String) : Option Nat :=
  if scheme = "https" then some 443
  else if scheme = "http" then some 80
  else if scheme = "ws" then some 80
  else if scheme = "wss" then some 443
  else if scheme = "ftp" then some 21
  else none

/-- Scheme characters (letters, digits, plus, minus, dot). -/
def schemeChar (c : Char) : Bool :=
  c.isAlpha || c.isDigit || c = '+' || c = '-' || c = '.'

/-- Split at the first occurrence of a separator character; the second
component is none when the separator does not occur (the separator itself
is dropped). -/
def splitFirst (sep : Char) (cs : List Char) : List Char × Option (List Char) :=
  match cs.dropWhile (fun c => c ≠ sep) with
  | [] => (cs.takeWhile (fun c => c ≠ sep), none)
  | _ :: rest => (cs.takeWhile (fun c => c ≠ sep), some rest)

/-- Parse a decimal port, none for empty (a colon with no digits yields
no port) and failure for non-digit characters. -/
def parsePort (cs : List Char) : Option (Option Nat) :=
  if cs.isEmpty then some none
  else if cs.all (fun c => c.isDigit) then
    some (some (cs.foldl (fun acc c => acc * 10 + (c.toNat - 48)) 0))
  else none

/-- Simplified model of url::Url::parse, covering the absolute
scheme-with-authority URLs this code deals with: scheme, optional
userinfo, host, optional port (elided when it is the scheme default),
path, query, fragment.  IDNA, percent-encoding and relative references
are outside the model. -/
def Url.parse (s : String) : Option Url :=
  let (beforeFrag, frag) := splitFirst '#' s.data
  let (beforeQuery, query) := splitFirst '?' beforeFrag
  match splitFirst ':' beforeQuery with
  | (schemeCs, some rest) =>
    if schemeCs.isEmpty then none
    else if ¬ schemeCs.all schemeChar then none
    else
      match rest with
      | '/' :: '/' :: authPath =>
        let auth := authPath.takeWhile (fun c => c ≠ '/')
        let pathCs := authPath.dropWhile (fun c => c ≠ '/')
        let (userinfo, hostPort) :=
          match splitFirst '@' auth with
          | (_, none) => (([] : List Char), auth)
          | (u, some hp) => (u, hp)
        let (hostCs, portPart) := splitFirst ':' hostPort
        if hostCs.isEmpty then none
        else
          match (match portPart with
                 | none => some none
                 | some pcs => parsePort pcs) with
          | none => none
          | some port =>
            let scheme := String.mk schemeCs
            let finalPort := if port = defaultPort scheme then none else port
            some
              { scheme := scheme
                username := String.mk (userinfo.takeWhile (fun c => c ≠ ':'))
                host := some (String.mk hostCs)
                port := finalPort
                path := String.mk (if pathCs.isEmpty then ['/'] else pathCs)
                query := query.map String.mk
                fragment := frag.map String.mk }
      | _ => none
  | (_, none) => none

/-- Validity facts the url crate guarantees for every parsed URL (and
that Url.parse above also establishes): neither the host nor the
serialized path contains a question mark or a hash, since those
characters always begin the query and the fragment. -/
def Url.Valid (u : Url) : Prop :=
  (∀ c ∈ (u.host.getD "").data, c ≠ '?' ∧ c ≠ '#') ∧
  (∀ c ∈ u.path.data, c ≠ '?' ∧ c ≠ '#')

instance (u : Url) : Decidable u.Valid := by
  unfold Url.Valid
  infer_instance

/-! ## Nerf-darting (auth.rs::nerf_dart) -/

/-- Path normalization inside nerf_dart: a path already ending in a slash
is kept; otherwise everything through the last slash is kept (the slice
path[..=idx] at idx = path.rfind('/'), computed here by dropping the
reversed path up to the last slash); a path with no slash becomes "/". -/
def nerfPathChars (path : List Char) : List Char :=
  if path.getLast? = some '/' then path
  else
    match path.reverse.dropWhile (fun c => c ≠ '/') with
    | [] => ['/']
    | a :: r => (a :: r).reverse

/-- Serialized port suffix (the ":{port}" format fragment, empty when the
port is absent). -/
def portChars : Option Nat → List Char
  | none => []
  | some p => ':' :: natToChars p

/-- Convert a registry URL to nerf-dart form (auth.rs::nerf_dart):
"//" ++ host ++ port ++ normalized path. -/
def nerf_dart (url : Url) : String :=
  String.mk ('/' :: '/' :: ((url.host.getD "").data ++ portChars url.port
    ++ nerfPathChars url.path.data))

/-! ## Registry helpers (registry.rs) -/

/-- Default npm registry URL string. -/
def DEFAULT_REGISTRY : String := "https://registry.npmjs.org/"

/-- Parsed form of DEFAULT_REGISTRY (the unwrap in default_registry). -/
def npmjsUrl : Url :=
  { scheme := "https", username := "", host := some "registry.npmjs.org",
    port := none, path := "/", query := none, fragment := none }

/-- Extract the scope from a package name (registry.rs::extract_scope):
for a name starting with an at sign, the substring up to the first slash
(or the whole name); otherwise none. -/
def extract_scope (package : String) : Option String :=
  if package.data.head? = some '@' then
    some (String.mk (package.data.takeWhile (fun c => c ≠ '/')))
  else none

/-- Build the config key for a scoped registry
(registry.rs::scope_registry_key). -/
def scope_registry_key (scope : String) : String := scope ++ ":registry"

/-- Parse a registry URL, ensuring a trailing slash
(registry.rs::parse_registry_url). -/
def parse_registry_url (url : String) : Option Url :=
  Url.parse (if url.data.getLast? = some '/' then url else url ++ "/")

/-! ## Credentials (auth.rs) -/

/-- Client certificate for mTLS (auth.rs::ClientCert); paths are modelled
as strings. -/
structure ClientCert where
  certfile : String
  keyfile : String
deriving DecidableEq

/-- Credentials for authenticating with a registry (auth.rs::Credentials). -/
inductive Credentials where
  | Token (token : String) (cert : Option ClientCert)
  | BasicAuth (username : String) (password : String) (cert : Option ClientCert)
  | LegacyAuth (auth : String) (username : String) (password : String)
      (cert : Option ClientCert)
  | ClientCertOnly (cert : ClientCert)
deriving DecidableEq

/-- Decode a base64-encoded password (auth.rs::decode_password); the Rust
Result becomes Option, errors from the base64 and UTF-8 stages both
yielding none. -/
def decode_password (encoded : String) : Option String :=
  (b64Decode encoded.data).bind (fun bytes => (utf8Decode bytes).map String.mk)

/-- Split at the first colon like str::splitn(2, ':'): the part before
the first colon (the whole input when there is none) and the untouched
remainder after it (empty when there is none). -/
def splitFirstColon (cs : List Char) : List Char × List Char :=
  (cs.takeWhile (fun c => c ≠ ':'), (cs.dropWhile (fun c => c ≠ ':')).drop 1)

/-- Parse the legacy auth field, base64-encoded "username:password"
(auth.rs::parse_legacy_auth). -/
def parse_legacy_auth (auth : String) : Option (String × String) :=
  (b64Decode auth.data).bind fun bytes =>
    (utf8Decode bytes).map fun cs =>
      (String.mk (splitFirstColon cs).1, String.mk (splitFirstColon cs).2)

/-- Base64-encoded basic auth header (auth.rs::Credentials::basic_auth_header). -/
def Credentials.basic_auth_header : Credentials → Option String
  | Credentials.BasicAuth username password _ =>
      some (String.mk (b64Encode (utf8Encode (username ++ ":" ++ password).data)))
  | Credentials.LegacyAuth auth _ _ _ => some auth
  | _ => none

/-! ## Debug rendering (auth.rs, impl fmt::Debug for Credentials)

The formatter output of debug_struct and debug_tuple in non-alternate
mode is reproduced textually; secret fields are matched with a wildcard
exactly as the Rust match arms discard them. -/

/-- Debug form of a string (the quoting of fmt::Debug for str). -/
def debugStr (s : String) : String := "\"" ++ s ++ "\""

/-- Debug form of a ClientCert (derived Debug). -/
def ClientCert.debugFmt (c : ClientCert) : String :=
  "ClientCert \x7b certfile: " ++ debugStr c.certfile ++ ", keyfile: "
    ++ debugStr c.keyfile ++ " \x7d"

/-- Debug form of an optional ClientCert (derived Debug for Option). -/
def certDebugFmt : Option ClientCert → String
  | none => "None"
  | some c => "Some(" ++ c.debugFmt ++ ")"

/-- Debug rendering of Credentials (the manual fmt::Debug impl in
auth.rs): tokens, passwords and the raw auth string are replaced by the
fixed redaction marker; usernames and certificates are shown. -/
def Credentials.debugFmt : Credentials → String
  | Credentials.Token _ cert =>
      "Token \x7b token: " ++ debugStr "[REDACTED]" ++ ", cert: "
        ++ certDebugFmt cert ++ " \x7d"
  | Credentials.BasicAuth username _ cert =>
      "BasicAuth \x7b username: " ++ debugStr username ++ ", password: "
        ++ debugStr "[REDACTED]" ++ ", cert: " ++ certDebugFmt cert ++ " \x7d"
  | Credentials.LegacyAuth _ username _ cert =>
      "LegacyAuth \x7b auth: " ++ debugStr "[REDACTED]" ++ ", username: "
        ++ debugStr username ++ ", password: " ++ debugStr "[REDACTED]"
        ++ ", cert: " ++ certDebugFmt cert ++ " \x7d"
  | Credentials.ClientCertOnly cert =>
      "ClientCertOnly(" ++ cert.debugFmt ++ ")"

/-! ## Tilde expansion (paths.rs::expand_tilde)

The home directory read from the process (dirs::home_dir) is passed
explicitly; PathBuf values are modelled as strings, with join on a
relative path appending a slash and the component. -/

def expand_tilde (home : Option String) (path : String) : String :=
  if path.data.take 2 = ['~', '/'] then
    match home with
    | some h => h ++ "/" ++ String.mk (path.data.drop 2)
    | none => path
  else if path = "~" then
    match home with
    | some h => h
    | none => path
  else path

/-! ## Merged configuration (config.rs) -/

/-- Parsed configuration data of a single npmrc file
(config.rs::ConfigData); the source path is irrelevant to the verified
operations and omitted. -/
structure ConfigData where
  data : RawConfigMap

/-- Lookup in one config layer (config.rs::ConfigData::get). -/
def ConfigData.get (c : ConfigData) (key : String) : Option String :=
  mapGet c.data key

/-- Merged npm configuration (config.rs::NpmrcConfig); only the three
layers take part in the verified operations.  The home directory used by
tilde expansion inside get_client_cert is passed to the operations that
need it. -/
structure NpmrcConfig where
  global_config : Option ConfigData
  user_config : Option ConfigData
  project_config : Option ConfigData

/-- Raw config lookup scanning project, then user, then global
(config.rs::NpmrcConfig::get). -/
def NpmrcConfig.get (c : NpmrcConfig) (key : String) : Option String :=
  ((c.project_config.bind (fun l => l.get key)).orElse
    (fun _ => c.user_config.bind (fun l => l.get key))).orElse
    (fun _ => c.global_config.bind (fun l => l.get key))

/-- Default registry URL (config.rs::NpmrcConfig::default_registry); the
unwrap on parsing DEFAULT_REGISTRY is modelled by npmjsUrl, proved below
to be the parse of DEFAULT_REGISTRY. -/
def NpmrcConfig.default_registry (c : NpmrcConfig) : Url :=
  ((c.get "registry").bind parse_registry_url).getD npmjsUrl

/-- Registry URL for a package (config.rs::NpmrcConfig::registry_for). -/
def NpmrcConfig.registry_for (c : NpmrcConfig) (package : String) : Url :=
  match extract_scope package with
  | some scope =>
    match c.get (scope_registry_key scope) with
    | some url =>
      match parse_registry_url url with
      | some parsed => parsed
      | none => c.default_registry
    | none => c.default_registry
  | none => c.default_registry

/-- Client certificate configuration for a nerf-darted key
(config.rs::NpmrcConfig::get_client_cert): both certfile and keyfile must
be present, each tilde-expanded. -/
def NpmrcConfig.get_client_cert (c : NpmrcConfig) (home : Option String)
    (nerfed : String) : Option ClientCert :=
  match c.get (nerfed ++ ":certfile"), c.get (nerfed ++ ":keyfile") with
  | some certfile, some keyfile =>
      some { certfile := expand_tilde home certfile, keyfile := expand_tilde home keyfile }
  | _, _ => none

/-- Credentials for a registry URL (config.rs::NpmrcConfig::credentials_for):
nerf-dart the registry, resolve an optional client certificate, then try
the bearer token, the username/password pair, and the legacy auth field in
that order, falling back to a certificate-only result or none. -/
def NpmrcConfig.credentials_for (c : NpmrcConfig) (home : Option String)
    (registry : Url) : Option Credentials :=
  let nerfed := nerf_dart registry
  let cert := c.get_client_cert home nerfed
  match c.get (nerfed ++ ":_authToken") with
  | some token => some (Credentials.Token token cert)
  | none =>
    match (match c.get (nerfed ++ ":username"), c.get (nerfed ++ ":_password") with
           | some username, some encoded =>
             (decode_password encoded).map
               (fun password => Credentials.BasicAuth username password cert)
           | _, _ => none) with
    | some creds => some creds
    | none =>
      match (match c.get (nerfed ++ ":_auth") with
             | some auth =>
               (parse_legacy_auth auth).map
                 (fun up => Credentials.LegacyAuth auth up.1 up.2 cert)
             | none => none) with
      | some creds => some creds
      | none => cert.map Credentials.ClientCertOnly

/-! ## Base64 lemmas -/

theorem b64Index_b64Char_fin : ∀ n : Fin 64, b64Index (b64Char n.val) = some n.val := by
  decide

theorem b64Index_b64Char {n : Nat} (h : n < 64) : b64Index (b64Char n) = some n :=
  b64Index_b64Char_fin ⟨n, h⟩

theorem b64Char_ne_pad_fin : ∀ n : Fin 64, b64Char n.val ≠ '=' := by
  decide

theorem b64Char_ne_pad {n : Nat} (h : n < 64) : b64Char n ≠ '=' :=
  b64Char_ne_pad_fin ⟨n, h⟩

theorem b64Encode_cons_ne_nil (b : Nat) (bs : List Nat) : b64Encode (b :: bs) ≠ [] := by
  match bs with
  | [] => simp [b64Encode]
  | [b1] => simp [b64Encode]
  | b1 :: b2 :: rest => simp [b64Encode]

theorem b64DecodeLast_pad2 {s0 s1 : Nat} (h0 : s0 < 64) (h1 : s1 < 64) :
    b64DecodeLast (b64Char s0) (b64Char s1) '=' '=' =
      if s1 % 16 = 0 then some [s0 * 4 + s1 / 16] else none := by
  unfold b64DecodeLast
  rw [b64Index_b64Char h0, b64Index_b64Char h1]
  simp

theorem b64DecodeLast_pad1 {s0 s1 s2 : Nat} (h0 : s0 < 64) (h1 : s1 < 64) (h2 : s2 < 64) :
    b64DecodeLast (b64Char s0) (b64Char s1) (b64Char s2) '=' =
      if s2 % 4 = 0 then some [s0 * 4 + s1 / 16, s1 % 16 * 16 + s2 / 4] else none := by
  unfold b64DecodeLast
  rw [b64Index_b64Char h0, b64Index_b64Char h1, b64Index_b64Char h2]
  simp [b64Char_ne_pad h2]

theorem b64DecodeLast_nopad {s0 s1 s2 s3 : Nat}
    (h0 : s0 < 64) (h1 : s1 < 64) (h2 : s2 < 64) (h3 : s3 < 64) :
    b64DecodeLast (b64Char s0) (b64Char s1) (b64Char s2) (b64Char s3) =
      some [s0 * 4 + s1 / 16, s1 % 16 * 16 + s2 / 4, s2 % 4 * 64 + s3] := by
  unfold b64DecodeLast
  rw [b64Index_b64Char h0, b64Index_b64Char h1, b64Index_b64Char h2, b64Index_b64Char h3]
  simp [b64Char_ne_pad h2, b64Char_ne_pad h3]

/-- Decoding inverts encoding on byte lists (all entries below 256). -/
theorem b64_roundtrip : ∀ (bs : List Nat), (∀ b ∈ bs, b < 256) →
    b64Decode (b64Encode bs) = some bs
  | [], _ => rfl
  | [b0], h => by
    have hb : b0 < 256 := h b0 (by simp)
    show b64Decode (b64Encode [b0]) = some [b0]
    rw [b64Encode]
    rw [show b64Decode [b64Char (b0 / 4), b64Char (b0 % 4 * 16), '=', '='] =
      b64DecodeLast (b64Char (b0 / 4)) (b64Char (b0 % 4 * 16)) '=' '=' from rfl]
    rw [b64DecodeLast_pad2 (by omega) (by omega)]
    rw [if_pos (by omega)]
    have e0 : b0 / 4 * 4 + b0 % 4 * 16 / 16 = b0 := by omega
    rw [e0]
  | [b0, b1], h => by
    have hb0 : b0 < 256 := h b0 (by simp)
    have hb1 : b1 < 256 := h b1 (by simp)
    show b64Decode (b64Encode [b0, b1]) = some [b0, b1]
    rw [b64Encode]
    rw [show b64Decode [b64Char (b0 / 4), b64Char (b0 % 4 * 16 + b1 / 16),
        b64Char (b1 % 16 * 4), '='] =
      b64DecodeLast (b64Char (b0 / 4)) (b64Char (b0 % 4 * 16 + b1 / 16))
        (b64Char (b1 % 16 * 4)) '=' from rfl]
    rw [b64DecodeLast_pad1 (by omega) (by omega) (by omega)]
    rw [if_pos (by omega)]
    have e0 : b0 / 4 * 4 + (b0 % 4 * 16 + b1 / 16) / 16 = b0 := by omega
    have e1 : (b0 % 4 * 16 + b1 / 16) % 16 * 16 + b1 % 16 * 4 / 4 = b1 := by omega
    rw [e0, e1]
  | b0 :: b1 :: b2 :: rest, h => by
    have hb0 : b0 < 256 := h b0 (by simp)
    have hb1 : b1 < 256 := h b1 (by simp)
    have hb2 : b2 < 256 := h b2 (by simp)
    have ih := b64_roundtrip rest (fun b hb => h b (by simp [hb]))
    rw [b64Encode]
    match hr : rest with
    | [] =>
      rw [show b64Encode ([] : List Nat) = ([] : List Char) from rfl]
      rw [show b64Decode [b64Char (b0 / 4), b64Char (b0 % 4 * 16 + b1 / 16),
          b64Char (b1 % 16 * 4 + b2 / 64), b64Char (b2 % 64)] =
        b64DecodeLast (b64Char (b0 / 4)) (b64Char (b0 % 4 * 16 + b1 / 16))
          (b64Char (b1 % 16 * 4 + b2 / 64)) (b64Char (b2 % 64)) from rfl]
      rw [b64DecodeLast_nopad (by omega) (by omega) (by omega) (by omega)]
      have e0 : b0 / 4 * 4 + (b0 % 4 * 16 + b1 / 16) / 16 = b0 := by omega
      have e1 : (b0 % 4 * 16 + b1 / 16) % 16 * 16 + (b1 % 16 * 4 + b2 / 64) / 4 = b1 := by
        omega
      have e2 : (b1 % 16 * 4 + b2 / 64) % 4 * 64 + b2 % 64 = b2 := by omega
      rw [e0, e1, e2]
    | r :: rs =>
      have hne : b64Encode (r :: rs) ≠ [] := b64Encode_cons_ne_nil r rs
      rw [show b64Decode (b64Char (b0 / 4) :: b64Char (b0 % 4 * 16 + b1 / 16) ::
          b64Char (b1 % 16 * 4 + b2 / 64) :: b64Char (b2 % 64) :: b64Encode (r :: rs)) =
        (if (b64Encode (r :: rs)).isEmpty then
          b64DecodeLast (b64Char (b0 / 4)) (b64Char (b0 % 4 * 16 + b1 / 16))
            (b64Char (b1 % 16 * 4 + b2 / 64)) (b64Char (b2 % 64))
         else
          match b64Index (b64Char (b0 / 4)), b64Index (b64Char (b0 % 4 * 16 + b1 / 16)),
            b64Index (b64Char (b1 % 16 * 4 + b2 / 64)), b64Index (b64Char (b2 % 64)) with
          | some s0, some s1, some s2, some s3 =>
            (b64Decode (b64Encode (r :: rs))).map
              (fun tail => (s0 * 4 + s1 / 16) :: (s1 % 16 * 16 + s2 / 4) ::
                (s2 % 4 * 64 + s3) :: tail)
          | _, _, _, _ => none) from rfl]
      rw [if_neg (by simpa [List.isEmpty_iff] using hne)]
      rw [b64Index_b64Char (show b0 / 4 < 64 by omega),
          b64Index_b64Char (show b0 % 4 * 16 + b1 / 16 < 64 by omega),
          b64Index_b64Char (show b1 % 16 * 4 + b2 / 64 < 64 by omega),
          b64Index_b64Char (show b2 % 64 < 64 by omega)]
      rw [show b64Decode (b64Encode (r :: rs)) = some (r :: rs) from hr ▸ ih]
      simp only [Option.map_some]
      have e0 : b0 / 4 * 4 + (b0 % 4 * 16 + b1 / 16) / 16 = b0 := by omega
      have e1 : (b0 % 4 * 16 + b1 / 16) % 16 * 16 + (b1 % 16 * 4 + b2 / 64) / 4 = b1 := by
        omega
      have e2 : (b1 % 16 * 4 + b2 / 64) % 4 * 64 + b2 % 64 = b2 := by omega
      rw [e0, e1, e2]
      rfl
termination_by bs => bs.length

/-! ## UTF-8 lemmas -/

/-! ## UTF-8 lemmas -/

theorem utf8EncodeChar_lt_256 (c : Char) : ∀ b ∈ utf8EncodeChar c, b < 256 := by
  have hval : Nat.isValidChar c.toNat := c.valid
  have hlt : c.toNat < 0x110000 := by
    rcases hval with h | h
    · omega
    · omega
  unfold utf8EncodeChar
  intro b hb
  split at hb
  · simp at hb; omega
  · split at hb
    · simp at hb
      rcases hb with h | h <;> omega
    · split at hb
      · simp at hb
        rcases hb with h | h | h <;> omega
      · simp at hb
        rcases hb with h | h | h | h <;> omega

theorem utf8Encode_lt_256 (cs : List Char) : ∀ b ∈ utf8Encode cs, b < 256 := by
  intro b hb
  simp only [utf8Encode, List.mem_flatten, List.mem_map] at hb
  obtain ⟨l, ⟨c, _, hc⟩, hbl⟩ := hb
  exact utf8EncodeChar_lt_256 c b (hc ▸ hbl)

/-- Decoding one scalar from the encoding of a character followed by
anything recovers the character and the trailing bytes. -/
theorem utf8DecodeOne_encodeChar (c : Char) (bs : List Nat) :
    utf8DecodeOne (utf8EncodeChar c ++ bs) = some (c, bs) := by
  have hval : Nat.isValidChar c.toNat := c.valid
  have hofn : Char.ofNat c.toNat = c := Char.ofNat_toNat c
  have hns : c.toNat < 0xD800 ∨ 0xDFFF < c.toNat := by
    rcases hval with h | h
    · exact Or.inl h
    · exact Or.inr h.1
  have hlt : c.toNat < 0x110000 := by
    rcases hval with h | h
    · omega
    · omega
  unfold utf8EncodeChar
  by_cases h1 : c.toNat < 0x80
  · rw [if_pos h1]
    simp only [List.cons_append, List.nil_append]
    simp only [utf8DecodeOne]
    rw [if_pos h1, hofn]
  · rw [if_neg h1]
    by_cases h2 : c.toNat < 0x800
    · rw [if_pos h2]
      simp only [List.cons_append, List.nil_append]
      simp only [utf8DecodeOne]
      rw [if_neg (show ¬ 0xC0 + c.toNat / 64 < 0x80 by omega),
          if_neg (show ¬ 0xC0 + c.toNat / 64 < 0xC2 by omega),
          if_pos (show 0xC0 + c.toNat / 64 < 0xE0 by omega)]
      rw [if_pos (show isCont (0x80 + c.toNat % 64) = true by
        simp only [isCont, Bool.and_eq_true, decide_eq_true_eq]
        omega)]
      rw [show (0xC0 + c.toNat / 64 - 0xC0) * 64 + (0x80 + c.toNat % 64 - 0x80) = c.toNat by
        omega, hofn]
    · rw [if_neg h2]
      by_cases h3 : c.toNat < 0x10000
      · rw [if_pos h3]
        simp only [List.cons_append, List.nil_append]
        simp only [utf8DecodeOne]
        rw [if_neg (show ¬ 0xE0 + c.toNat / 4096 < 0x80 by omega),
            if_neg (show ¬ 0xE0 + c.toNat / 4096 < 0xC2 by omega),
            if_neg (show ¬ 0xE0 + c.toNat / 4096 < 0xE0 by omega),
            if_pos (show 0xE0 + c.toNat / 4096 < 0xF0 by omega)]
        rw [if_pos (show (isCont (0x80 + c.toNat / 64 % 64)
            && isCont (0x80 + c.toNat % 64)) = true by
          simp only [isCont, Bool.and_eq_true, decide_eq_true_eq]
          omega)]
        rw [show (0xE0 + c.toNat / 4096 - 0xE0) * 4096 + (0x80 + c.toNat / 64 % 64 - 0x80) * 64
            + (0x80 + c.toNat % 64 - 0x80) = c.toNat by omega]
        rw [if_neg (show ¬ c.toNat < 0x800 by omega),
            if_neg (show ¬ (0xD800 ≤ c.toNat ∧ c.toNat ≤ 0xDFFF) by omega), hofn]
      · rw [if_neg h3]
        simp only [List.cons_append, List.nil_append]
        simp only [utf8DecodeOne]
        rw [if_neg (show ¬ 0xF0 + c.toNat / 262144 < 0x80 by omega),
            if_neg (show ¬ 0xF0 + c.toNat / 262144 < 0xC2 by omega),
            if_neg (show ¬ 0xF0 + c.toNat / 262144 < 0xE0 by omega),
            if_neg (show ¬ 0xF0 + c.toNat / 262144 < 0xF0 by omega),
            if_pos (show 0xF0 + c.toNat / 262144 < 0xF5 by omega)]
        rw [if_pos (show (isCont (0x80 + c.toNat / 4096 % 64)
            && isCont (0x80 + c.toNat / 64 % 64) && isCont (0x80 + c.toNat % 64)) = true by
          simp only [isCont, Bool.and_eq_true, decide_eq_true_eq]
          omega)]
        rw [show (0xF0 + c.toNat / 262144 - 0xF0) * 262144
            + (0x80 + c.toNat / 4096 % 64 - 0x80) * 4096
            + (0x80 + c.toNat / 64 % 64 - 0x80) * 64 + (0x80 + c.toNat % 64 - 0x80)
            = c.toNat by omega]
        rw [if_neg (show ¬ c.toNat < 0x10000 by omega),
            if_neg (show ¬ 0x110000 ≤ c.toNat by omega), hofn]

/-- Decoding the encoding of one character at the head of a byte stream
peels off exactly that character. -/
theorem utf8DecodeAux_roundtrip :
    ∀ (cs : List Char) (fuel : Nat), cs.length ≤ fuel →
      utf8DecodeAux fuel (utf8Encode cs) = some cs := by
  intro cs
  induction cs with
  | nil =>
    intro fuel _
    match fuel with
    | 0 => rfl
    | f + 1 => rfl
  | cons c rest ih =>
    intro fuel hf
    match fuel with
    | f + 1 =>
      rw [show utf8Encode (c :: rest) = utf8EncodeChar c ++ utf8Encode rest by
        simp [utf8Encode]]
      rw [utf8DecodeAux]
      rw [utf8DecodeOne_encodeChar]
      show (utf8DecodeAux f (utf8Encode rest)).map (fun cs => c :: cs) = some (c :: rest)
      rw [ih f (by simpa using Nat.lt_succ_iff.mp (Nat.lt_of_lt_of_le (by simp) hf))]
      rfl

/-- Each character contributes at least one encoded byte. -/
theorem length_le_utf8Encode_length (cs : List Char) :
    cs.length ≤ (utf8Encode cs).length := by
  induction cs with
  | nil => simp [utf8Encode]
  | cons c rest ih =>
    rw [show utf8Encode (c :: rest) = utf8EncodeChar c ++ utf8Encode rest by
      simp [utf8Encode]]
    rw [List.length_append, List.length_cons]
    have hne : utf8EncodeChar c ≠ [] := by
      unfold utf8EncodeChar
      split
      · simp
      · split
        · simp
        · split
          · simp
          · simp
    have : 1 ≤ (utf8EncodeChar c).length := by
      cases hc : utf8EncodeChar c with
      | nil => exact absurd hc hne
      | cons a l => simp
    omega

/-- Decoding inverts encoding on character lists. -/
theorem utf8_roundtrip (cs : List Char) : utf8Decode (utf8Encode cs) = some cs :=
  utf8DecodeAux_roundtrip cs (utf8Encode cs).length (length_le_utf8Encode_length cs)

/-! ## Legacy auth round-trip -/

theorem splitFirstColon_append (u p : List Char) (h : ':' ∉ u) :
    splitFirstColon (u ++ ':' :: p) = (u, p) := by
  have hall : ∀ a ∈ u, decide (a ≠ ':') = true := by
    intro a ha
    simp only [ne_eq, decide_eq_true_eq]
    intro hcontra
    exact h (hcontra ▸ ha)
  have htake : u.takeWhile (fun c => c ≠ ':') = u :=
    List.takeWhile_eq_self_iff.mpr hall
  have hdrop : u.dropWhile (fun c => c ≠ ':') = [] :=
    List.dropWhile_eq_nil_iff.mpr hall
  unfold splitFirstColon
  rw [List.takeWhile_append, List.dropWhile_append]
  rw [htake, hdrop]
  simp

/-- C6: for every username not containing a colon and every password,
parse_legacy_auth inverts base64 over the UTF-8 bytes of
username ++ ":" ++ password, recovering exactly that pair; the decoded
text is split only at the first colon, so a password containing colons is
preserved whole. -/
theorem legacy_auth_roundtrip (u p : String) (h : ':' ∉ u.data) :
    parse_legacy_auth (String.mk (b64Encode (utf8Encode (u ++ ":" ++ p).data))) =
      some (u, p) := by
  unfold parse_legacy_auth
  rw [show (String.mk (b64Encode (utf8Encode (u ++ ":" ++ p).data))).data
      = b64Encode (utf8Encode (u ++ ":" ++ p).data) from rfl]
  rw [b64_roundtrip _ (utf8Encode_lt_256 _)]
  rw [Option.some_bind]
  rw [utf8_roundtrip]
  rw [Option.map_some']
  rw [show (u ++ ":" ++ p).data = u.data ++ ':' :: p.data by
    simp [String.data_append]]
  rw [splitFirstColon_append u.data p.data h]

/-- Witness for C6 at a concrete pair whose password contains a colon. -/
theorem legacy_auth_roundtrip_witness :
    (':' ∉ "user".data) ∧
      parse_legacy_auth (String.mk (b64Encode (utf8Encode ("user" ++ ":" ++ "pa:ss").data)))
        = some ("user", "pa:ss") :=
  ⟨by decide, legacy_auth_roundtrip "user" "pa:ss" (by decide)⟩

/-! ## Nerf-dart shape -/

theorem char_toNat_ofNat {n : Nat} (h : Nat.isValidChar n) : (Char.ofNat n).toNat = n := by
  unfold Char.ofNat
  rw [dif_pos h]
  rfl

theorem natToCharsAux_digits :
    ∀ (fuel n : Nat), ∀ c ∈ natToCharsAux fuel n, 48 ≤ c.toNat ∧ c.toNat ≤ 57 := by
  intro fuel
  induction fuel with
  | zero =>
    intro n c hc
    simp only [natToCharsAux, List.mem_singleton] at hc
    subst hc
    rw [char_toNat_ofNat (by left; omega)]
    omega
  | succ f ih =>
    intro n c hc
    simp only [natToCharsAux] at hc
    split at hc
    · simp only [List.mem_singleton] at hc
      subst hc
      rw [char_toNat_ofNat (by left; omega)]
      omega
    · simp only [List.mem_append, List.mem_singleton] at hc
      rcases hc with hc | hc
      · exact ih _ c hc
      · subst hc
        rw [char_toNat_ofNat (by left; omega)]
        omega

theorem portChars_mem (p : Option Nat) :
    ∀ c ∈ portChars p, c = ':' ∨ (48 ≤ c.toNat ∧ c.toNat ≤ 57) := by
  intro c hc
  match p with
  | none => simp [portChars] at hc
  | some k =>
    simp only [portChars, List.mem_cons] at hc
    rcases hc with hc | hc
    · exact Or.inl hc
    · exact Or.inr (natToCharsAux_digits k k c hc)

theorem dropWhile_head_false (p : Char → Bool) (l : List Char) :
    ∀ a as, l.dropWhile p = a :: as → p a = false := by
  induction l with
  | nil =>
    intro a as h
    cases h
  | cons x xs ih =>
    intro a as h
    rw [List.dropWhile_cons] at h
    split at h
    · exact ih a as h
    · cases h
      cases hpa : p x
      · rfl
      · exact absurd hpa (by assumption)

theorem nerfPathChars_getLast (p : List Char) :
    (nerfPathChars p).getLast? = some '/' := by
  unfold nerfPathChars
  split
  next hend => exact hend
  next hend =>
    split
    · rfl
    next a r heq =>
      have ha : decide (a ≠ '/') = false :=
        dropWhile_head_false _ p.reverse a r heq
      have ha2 : a = '/' := by
        simpa using ha
      rw [List.getLast?_reverse]
      simp [ha2]

theorem nerfPathChars_subset (p : List Char) :
    ∀ c ∈ nerfPathChars p, c ∈ p ∨ c = '/' := by
  unfold nerfPathChars
  split
  · intro c hc
    exact Or.inl hc
  · split
    · intro c hc
      simp only [List.mem_singleton] at hc
      exact Or.inr hc
    next a r heq =>
      intro c hc
      rw [List.mem_reverse] at hc
      have hsub : (a :: r) ⊆ p.reverse := by
        rw [← heq]
        exact (List.dropWhile_sublist _).subset
      have hmem := hsub hc
      rw [List.mem_reverse] at hmem
      exact Or.inl hmem

/-- C2: for every valid URL, nerf_dart output starts with two slashes,
contains neither a question mark nor a hash, and ends with a slash; the
two concrete examples from the spec hold; and the output is independent
of the scheme and the userinfo (they are stripped). -/
theorem nerf_dart_spec :
    (∀ u : Url, u.Valid →
        (nerf_dart u).data.take 2 = ['/', '/'] ∧
        '?' ∉ (nerf_dart u).data ∧
        '#' ∉ (nerf_dart u).data ∧
        (nerf_dart u).data.getLast? = some '/') ∧
    ((Url.parse "https://registry.npmjs.org/pkg?write=true#x").map nerf_dart
        = some "//registry.npmjs.org/") ∧
    ((Url.parse "https://h:5984/a/b/pkg").map nerf_dart = some "//h:5984/a/b/") ∧
    (∀ (u : Url) (sch usr : String),
        nerf_dart { u with scheme := sch, username := usr } = nerf_dart u) := by
  refine ⟨?_, by decide, by decide, fun u sch usr => rfl⟩
  intro u hval
  have hmemchar : ∀ x : Char, x ∈ (nerf_dart u).data →
      x = '/' ∨ x ∈ (u.host.getD "").data ∨ x ∈ portChars u.port ∨
        x ∈ nerfPathChars u.path.data := by
    intro x hx
    have hx2 : x ∈ ('/' :: '/' :: ((u.host.getD "").data ++ portChars u.port
        ++ nerfPathChars u.path.data)) := hx
    simp only [List.mem_cons, List.mem_append] at hx2
    tauto
  refine ⟨rfl, ?_, ?_, ?_⟩
  · intro hx
    rcases hmemchar '?' hx with h | h | h | h
    · cases h
    · exact absurd rfl (hval.1 '?' h).1
    · rcases portChars_mem u.port '?' h with h2 | h2
      · cases h2
      · have : ('?' : Char).toNat = 63 := rfl
        omega
    · rcases nerfPathChars_subset u.path.data '?' h with h2 | h2
      · exact absurd rfl (hval.2 '?' h2).1
      · cases h2
  · intro hx
    rcases hmemchar '#' hx with h | h | h | h
    · cases h
    · exact absurd rfl (hval.1 '#' h).2
    · rcases portChars_mem u.port '#' h with h2 | h2
      · cases h2
      · have : ('#' : Char).toNat = 35 := rfl
        omega
    · rcases nerfPathChars_subset u.path.data '#' h with h2 | h2
      · exact absurd rfl (hval.2 '#' h2).2
      · cases h2
  · have hstruct : (nerf_dart u).data =
        ('/' :: '/' :: ((u.host.getD "").data ++ portChars u.port))
          ++ nerfPathChars u.path.data := by
      show ('/' :: '/' :: ((u.host.getD "").data ++ portChars u.port
          ++ nerfPathChars u.path.data)) = _
      simp [List.append_assoc]
    rw [hstruct, List.getLast?_append, nerfPathChars_getLast]
    rfl

/-- Witness for C2 at the parsed default registry URL. -/
theorem nerf_dart_spec_witness :
    npmjsUrl.Valid ∧
      ((nerf_dart npmjsUrl).data.take 2 = ['/', '/'] ∧
        '?' ∉ (nerf_dart npmjsUrl).data ∧
        '#' ∉ (nerf_dart npmjsUrl).data ∧
        (nerf_dart npmjsUrl).data.getLast? = some '/') :=
  ⟨by decide, nerf_dart_spec.1 npmjsUrl (by decide)⟩

/-! ## Layered lookup -/

/-- C3: get returns the value from the first layer that defines the key,
scanning project, then user, then global, and returns nothing when no
present layer defines it. -/
theorem get_layer_precedence (c : NpmrcConfig) (k : String) :
    (∀ v, c.project_config.bind (fun l => l.get k) = some v → c.get k = some v) ∧
    (c.project_config.bind (fun l => l.get k) = none →
      ∀ v, c.user_config.bind (fun l => l.get k) = some v → c.get k = some v) ∧
    (c.project_config.bind (fun l => l.get k) = none →
      c.user_config.bind (fun l => l.get k) = none →
      ∀ v, c.global_config.bind (fun l => l.get k) = some v → c.get k = some v) ∧
    (c.project_config.bind (fun l => l.get k) = none →
      c.user_config.bind (fun l => l.get k) = none →
      c.global_config.bind (fun l => l.get k) = none → c.get k = none) := by
  unfold NpmrcConfig.get
  refine ⟨?_, ?_, ?_, ?_⟩
  · intro v hp
    rw [hp]
    rfl
  · intro hp v hu
    rw [hp, hu]
    rfl
  · intro hp hu v hg
    rw [hp, hu, hg]
    rfl
  · intro hp hu hg
    rw [hp, hu, hg]
    rfl

/-- Witness for C3: the three-layer override scenario with k bound to p,
u and g in the project, user and global layers. -/
theorem get_layer_precedence_witness :
    (NpmrcConfig.mk (some (ConfigData.mk [("k", "g")])) (some (ConfigData.mk [("k", "u")]))
        (some (ConfigData.mk [("k", "p")]))).get "k" = some "p" ∧
    (NpmrcConfig.mk (some (ConfigData.mk [("k", "g")])) (some (ConfigData.mk [("k", "u")]))
        none).get "k" = some "u" ∧
    (NpmrcConfig.mk (some (ConfigData.mk [("k", "g")])) none none).get "k" = some "g" ∧
    (NpmrcConfig.mk none none none).get "k" = none :=
  ⟨(get_layer_precedence _ "k").1 "p" (by decide),
   (get_layer_precedence _ "k").2.1 (by decide) "u" (by decide),
   (get_layer_precedence _ "k").2.2.1 (by decide) (by decide) "g" (by decide),
   (get_layer_precedence _ "k").2.2.2 (by decide) (by decide) (by decide)⟩

/-! ## Debug redaction -/

/-- C9: the human-readable rendering of Credentials is identical for any
two values of the same variant that differ only in the secret fields
(token, password, raw auth string), and the username does appear in the
BasicAuth and LegacyAuth renderings. -/
theorem credentials_debug_redacts :
    (∀ (t1 t2 : String) (cert : Option ClientCert),
        (Credentials.Token t1 cert).debugFmt = (Credentials.Token t2 cert).debugFmt) ∧
    (∀ (u p1 p2 : String) (cert : Option ClientCert),
        (Credentials.BasicAuth u p1 cert).debugFmt
          = (Credentials.BasicAuth u p2 cert).debugFmt) ∧
    (∀ (a1 a2 u p1 p2 : String) (cert : Option ClientCert),
        (Credentials.LegacyAuth a1 u p1 cert).debugFmt
          = (Credentials.LegacyAuth a2 u p2 cert).debugFmt) ∧
    (∀ (u p : String) (cert : Option ClientCert), ∃ pre post : List Char,
        (Credentials.BasicAuth u p cert).debugFmt.data = pre ++ u.data ++ post) ∧
    (∀ (a u p : String) (cert : Option ClientCert), ∃ pre post : List Char,
        (Credentials.LegacyAuth a u p cert).debugFmt.data = pre ++ u.data ++ post) := by
  refine ⟨fun _ _ _ => rfl, fun _ _ _ _ => rfl, fun _ _ _ _ _ _ => rfl, ?_, ?_⟩
  · intro u p cert
    refine ⟨"BasicAuth \x7b username: \"".data,
      ("\", password: \"[REDACTED]\", cert: " ++ certDebugFmt cert ++ " \x7d").data, ?_⟩
    simp [Credentials.debugFmt, debugStr, String.data_append]
  · intro a u p cert
    refine ⟨"LegacyAuth \x7b auth: \"[REDACTED]\", username: \"".data,
      ("\", password: \"[REDACTED]\", cert: " ++ certDebugFmt cert ++ " \x7d").data, ?_⟩
    simp [Credentials.debugFmt, debugStr, String.data_append]

/-! ## Basic auth header -/

/-- C10: basic_auth_header returns base64 of username:password for
BasicAuth, the stored raw auth string unchanged for LegacyAuth (in
particular exactly the configured value when the credentials were
resolved from an _auth entry), and nothing for Token and
ClientCertOnly. -/
theorem basic_auth_header_spec :
    (∀ (u p : String) (cert : Option ClientCert),
        (Credentials.BasicAuth u p cert).basic_auth_header
          = some (String.mk (b64Encode (utf8Encode (u ++ ":" ++ p).data)))) ∧
    (∀ (a u p : String) (cert : Option ClientCert),
        (Credentials.LegacyAuth a u p cert).basic_auth_header = some a) ∧
    (∀ (t : String) (cert : Option ClientCert),
        (Credentials.Token t cert).basic_auth_header = none) ∧
    (∀ cert : ClientCert, (Credentials.ClientCertOnly cert).basic_auth_header = none) ∧
    (∀ (c : NpmrcConfig) (home : Option String) (reg : Url) (a u p : String)
        (cert : Option ClientCert),
        c.credentials_for home reg = some (Credentials.LegacyAuth a u p cert) →
        c.get (nerf_dart reg ++ ":_auth") = some a ∧
        (Credentials.LegacyAuth a u p cert).basic_auth_header = some a) := by
  refine ⟨fun _ _ _ => rfl, fun _ _ _ _ => rfl, fun _ _ => rfl, fun _ => rfl, ?_⟩
  intro c home reg a u p cert h
  simp only [NpmrcConfig.credentials_for] at h
  split at h
  · exact absurd h (by simp)
  · split at h
    next creds hb =>
      injection h with h2
      subst h2
      split at hb
      · rcases Option.map_eq_some'.mp hb with ⟨pw, _, habs⟩
        cases habs
      · exact absurd hb (by simp)
    · split at h
      next creds hl =>
        injection h with h2
        subst h2
        split at hl
        next auth hauth =>
          rcases Option.map_eq_some'.mp hl with ⟨up, hup, heqf⟩
          injection heqf with e1 e2 e3 e4
          subst e1
          exact ⟨hauth, rfl⟩
        next => exact absurd hl (by simp)
      · rcases Option.map_eq_some'.mp h with ⟨cc, _, habs⟩
        cases habs

/-- Witness for C10: a config whose only entry is a legacy _auth value;
resolution yields LegacyAuth and the header is exactly the configured
string. -/
theorem basic_auth_header_spec_witness :
    (NpmrcConfig.mk none none
        (some (ConfigData.mk [("//registry.example.com/:_auth",
          "dXNlcjpwYXNzd29yZA==")]))).get
        (nerf_dart (Url.mk "https" "" (some "registry.example.com") none "/" none none)
          ++ ":_auth") = some "dXNlcjpwYXNzd29yZA==" ∧
    (Credentials.LegacyAuth "dXNlcjpwYXNzd29yZA==" "user" "password"
        none).basic_auth_header = some "dXNlcjpwYXNzd29yZA==" :=
  basic_auth_header_spec.2.2.2.2
    (NpmrcConfig.mk none none
      (some (ConfigData.mk [("//registry.example.com/:_auth", "dXNlcjpwYXNzd29yZA==")])))
    none (Url.mk "https" "" (some "registry.example.com") none "/" none none)
    "dXNlcjpwYXNzd29yZA==" "user" "password" none (by decide)

/-! ## Client certificate completeness -/

/-- C8: a client certificate is attached exactly when both the certfile
and the keyfile keys are defined, each tilde-expanded; with either
missing no certificate is produced; and BasicAuth credentials are only
ever produced from a defined username together with a password that
decoded successfully, with the resolved certificate attached. -/
theorem client_cert_all_or_nothing :
    ∀ (c : NpmrcConfig) (home : Option String) (nerfed : String),
      ((c.get_client_cert home nerfed).isSome ↔
        (c.get (nerfed ++ ":certfile")).isSome ∧ (c.get (nerfed ++ ":keyfile")).isSome) ∧
      (∀ cf kf, c.get (nerfed ++ ":certfile") = some cf →
        c.get (nerfed ++ ":keyfile") = some kf →
        c.get_client_cert home nerfed
          = some (ClientCert.mk (expand_tilde home cf) (expand_tilde home kf))) ∧
      (∀ (reg : Url) (u pw : String) (cert : Option ClientCert),
        c.credentials_for home reg = some (Credentials.BasicAuth u pw cert) →
        ∃ enc, c.get (nerf_dart reg ++ ":username") = some u ∧
          c.get (nerf_dart reg ++ ":_password") = some enc ∧
          decode_password enc = some pw ∧
          cert = c.get_client_cert home (nerf_dart reg)) := by
  intro c home nerfed
  refine ⟨?_, ?_, ?_⟩
  · unfold NpmrcConfig.get_client_cert
    constructor
    · intro hs
      split at hs
      next hcf hkf => simp [hcf, hkf]
      next => simp at hs
    · intro ⟨h1, h2⟩
      rcases Option.isSome_iff_exists.mp h1 with ⟨cf, hcf⟩
      rcases Option.isSome_iff_exists.mp h2 with ⟨kf, hkf⟩
      rw [hcf, hkf]
      rfl
  · intro cf kf hcf hkf
    unfold NpmrcConfig.get_client_cert
    rw [hcf, hkf]
  · intro reg u pw cert h
    simp only [NpmrcConfig.credentials_for] at h
    split at h
    · exact absurd h (by simp)
    · split at h
      next creds hb =>
        injection h with h2
        subst h2
        split at hb
        next u2 enc hu henc =>
          rcases Option.map_eq_some'.mp hb with ⟨pw2, hdec, heqf⟩
          injection heqf with e1 e2 e3
          subst e1
          subst e2
          subst e3
          exact ⟨enc, hu, henc, hdec, rfl⟩
        next => exact absurd hb (by simp)
      · split at h
        next creds hl =>
          injection h with h2
          subst h2
          split at hl
          next auth hauth =>
            rcases Option.map_eq_some'.mp hl with ⟨up, _, heqf⟩
            cases heqf
          next => exact absurd hl (by simp)
        · rcases Option.map_eq_some'.mp h with ⟨cc, _, habs⟩
          cases habs

/-- Witness for C8: with both cert keys configured the certificate is
attached; BasicAuth resolution at a concrete config inverts to its
entries. -/
theorem client_cert_all_or_nothing_witness :
    (NpmrcConfig.mk none none
        (some (ConfigData.mk [("//r.example/:certfile", "/c.pem"),
          ("//r.example/:keyfile", "~/k.pem")]))).get_client_cert (some "/home/me")
        "//r.example/"
      = some (ClientCert.mk "/c.pem" "/home/me/k.pem") :=
  (client_cert_all_or_nothing
      (NpmrcConfig.mk none none
        (some (ConfigData.mk [("//r.example/:certfile", "/c.pem"),
          ("//r.example/:keyfile", "~/k.pem")])))
      (some "/home/me") "//r.example/").2.1 "/c.pem" "~/k.pem" (by decide) (by decide)
    |>.trans (by decide)

/-! ## Credential priority chain -/

/-- C1: credentials_for follows the nerf-dart priority chain with first
match winning: a defined _authToken key (even with an empty value) yields
Token; otherwise a defined username/_password pair whose password decodes
yields BasicAuth; otherwise a defined _auth value that decodes yields
LegacyAuth; otherwise the optional client certificate alone is returned
(ClientCertOnly when present, nothing when absent).  A decode failure in
a mechanism behaves as that mechanism being absent and the chain
continues; no error is ever returned. -/
theorem credentials_priority_chain :
    ∀ (c : NpmrcConfig) (home : Option String) (reg : Url),
      (∀ t, c.get (nerf_dart reg ++ ":_authToken") = some t →
        c.credentials_for home reg
          = some (Credentials.Token t (c.get_client_cert home (nerf_dart reg)))) ∧
      (c.get (nerf_dart reg ++ ":_authToken") = none →
        ∀ u enc pw, c.get (nerf_dart reg ++ ":username") = some u →
          c.get (nerf_dart reg ++ ":_password") = some enc →
          decode_password enc = some pw →
          c.credentials_for home reg
            = some (Credentials.BasicAuth u pw (c.get_client_cert home (nerf_dart reg)))) ∧
      (c.get (nerf_dart reg ++ ":_authToken") = none →
        (c.get (nerf_dart reg ++ ":username") = none ∨
          c.get (nerf_dart reg ++ ":_password") = none ∨
          (∀ enc, c.get (nerf_dart reg ++ ":_password") = some enc →
            decode_password enc = none)) →
        ∀ a u2 p2, c.get (nerf_dart reg ++ ":_auth") = some a →
          parse_legacy_auth a = some (u2, p2) →
          c.credentials_for home reg
            = some (Credentials.LegacyAuth a u2 p2
                (c.get_client_cert home (nerf_dart reg)))) ∧
      (c.get (nerf_dart reg ++ ":_authToken") = none →
        (c.get (nerf_dart reg ++ ":username") = none ∨
          c.get (nerf_dart reg ++ ":_password") = none ∨
          (∀ enc, c.get (nerf_dart reg ++ ":_password") = some enc →
            decode_password enc = none)) →
        (c.get (nerf_dart reg ++ ":_auth") = none ∨
          (∀ a, c.get (nerf_dart reg ++ ":_auth") = some a →
            parse_legacy_auth a = none)) →
        c.credentials_for home reg
          = (c.get_client_cert home (nerf_dart reg)).map Credentials.ClientCertOnly) := by
  intro c home reg
  refine ⟨?_, ?_, ?_, ?_⟩
  · intro t ht
    simp only [NpmrcConfig.credentials_for]
    rw [ht]
  · intro h0 u enc pw hu henc hdec
    simp only [NpmrcConfig.credentials_for]
    rw [h0, hu, henc]
    simp [hdec]
  · intro h0 hbasic a u2 p2 ha hparse
    simp only [NpmrcConfig.credentials_for]
    rw [h0]
    rcases hu : c.get (nerf_dart reg ++ ":username") with _ | u
    · simp [ha, hparse]
    · rcases hp : c.get (nerf_dart reg ++ ":_password") with _ | enc
      · simp [ha, hparse]
      · rcases hbasic with hb | hb | hb
        · rw [hu] at hb; cases hb
        · rw [hp] at hb; cases hb
        · have hdn := hb enc hp
          simp [hdn, ha, hparse]
  · intro h0 hbasic hlegacy
    simp only [NpmrcConfig.credentials_for]
    rw [h0]
    rcases hu : c.get (nerf_dart reg ++ ":username") with _ | u
    · rcases haq : c.get (nerf_dart reg ++ ":_auth") with _ | a
      · simp [haq]
      · rcases hlegacy with hl | hl
        · rw [haq] at hl; cases hl
        · simp [haq, hl a haq]
    · rcases hp : c.get (nerf_dart reg ++ ":_password") with _ | enc
      · rcases haq : c.get (nerf_dart reg ++ ":_auth") with _ | a
        · simp [haq]
        · rcases hlegacy with hl | hl
          · rw [haq] at hl; cases hl
          · simp [haq, hl a haq]
      · rcases hbasic with hb | hb | hb
        · rw [hu] at hb; cases hb
        · rw [hp] at hb; cases hb
        · have hdn := hb enc hp
          rcases haq : c.get (nerf_dart reg ++ ":_auth") with _ | a
          · simp [hdn, haq]
          · rcases hlegacy with hl | hl
            · rw [haq] at hl; cases hl
            · simp [hdn, haq, hl a haq]

/-- Witness for C1: the priority scenario of the spec (all three
mechanisms configured yields Token; dropping the token falls to
BasicAuth; dropping both falls to LegacyAuth) plus the present-but-empty
token case. -/
theorem credentials_priority_chain_witness :
    (NpmrcConfig.mk none none (some (ConfigData.mk
        [("//r.example/:_authToken", "tkn"),
          ("//r.example/:username", "user"),
          ("//r.example/:_password", "cGFzc3dvcmQ="),
          ("//r.example/:_auth", "dXNlcjpwYXNzd29yZA==")]))).credentials_for none
        (Url.mk "https" "" (some "r.example") none "/" none none)
      = some (Credentials.Token "tkn" none) ∧
    (NpmrcConfig.mk none none (some (ConfigData.mk
        [("//r.example/:username", "user"),
          ("//r.example/:_password", "cGFzc3dvcmQ="),
          ("//r.example/:_auth", "dXNlcjpwYXNzd29yZA==")]))).credentials_for none
        (Url.mk "https" "" (some "r.example") none "/" none none)
      = some (Credentials.BasicAuth "user" "password" none) ∧
    (NpmrcConfig.mk none none (some (ConfigData.mk
        [("//r.example/:_auth", "dXNlcjpwYXNzd29yZA==")]))).credentials_for none
        (Url.mk "https" "" (some "r.example") none "/" none none)
      = some (Credentials.LegacyAuth "dXNlcjpwYXNzd29yZA==" "user" "password" none) ∧
    (NpmrcConfig.mk none none (some (ConfigData.mk
        [("//r.example/:_authToken", "")]))).credentials_for none
        (Url.mk "https" "" (some "r.example") none "/" none none)
      = some (Credentials.Token "" none) := by
  refine ⟨?_, ?_, ?_, ?_⟩
  · exact ((credentials_priority_chain _ none _).1 "tkn" (by decide)).trans (by decide)
  · exact ((credentials_priority_chain _ none _).2.1 (by decide) "user" "cGFzc3dvcmQ="
      "password" (by decide) (by decide) (by decide)).trans (by decide)
  · exact ((credentials_priority_chain _ none _).2.2.1 (by decide) (Or.inl (by decide))
      "dXNlcjpwYXNzd29yZA==" "user" "password" (by decide) (by decide)).trans (by decide)
  · exact ((credentials_priority_chain _ none _).1 "" (by decide)).trans (by decide)

/-! ## Registry resolution -/

/-- C7: registry_for on a scoped name looks up the scope (the substring
up to the first slash, or the whole name) under scope:registry and
returns the parsed, slash-normalized URL when that value parses; in every
other case (unscoped name, absent scope key, unparseable value) it
returns default_registry, which is the parsed registry key when present
and parseable and the fixed npm default otherwise. -/
theorem registry_for_spec :
    ∀ (c : NpmrcConfig) (pkg : String),
      (¬ pkg.data.head? = some '@' → c.registry_for pkg = c.default_registry) ∧
      (∀ url parsed, pkg.data.head? = some '@' →
        c.get (scope_registry_key
            (String.mk (pkg.data.takeWhile (fun ch => ch ≠ '/')))) = some url →
        parse_registry_url url = some parsed →
        c.registry_for pkg = parsed) ∧
      (pkg.data.head? = some '@' →
        c.get (scope_registry_key
            (String.mk (pkg.data.takeWhile (fun ch => ch ≠ '/')))) = none →
        c.registry_for pkg = c.default_registry) ∧
      (∀ url, pkg.data.head? = some '@' →
        c.get (scope_registry_key
            (String.mk (pkg.data.takeWhile (fun ch => ch ≠ '/')))) = some url →
        parse_registry_url url = none →
        c.registry_for pkg = c.default_registry) ∧
      (∀ r parsed, c.get "registry" = some r → parse_registry_url r = some parsed →
        c.default_registry = parsed) ∧
      (c.get "registry" = none → c.default_registry = npmjsUrl) ∧
      (∀ r, c.get "registry" = some r → parse_registry_url r = none →
        c.default_registry = npmjsUrl) ∧
      Url.parse DEFAULT_REGISTRY = some npmjsUrl := by
  intro c pkg
  refine ⟨?_, ?_, ?_, ?_, ?_, ?_, ?_, by decide⟩
  · intro hat
    unfold NpmrcConfig.registry_for extract_scope
    rw [if_neg hat]
  · intro url parsed hat hget hparse
    simp only [NpmrcConfig.registry_for, extract_scope, if_pos hat, scope_registry_key]
    simp only [scope_registry_key] at hget
    rw [hget]
    simp [hparse]
  · intro hat hget
    simp only [NpmrcConfig.registry_for, extract_scope, if_pos hat, scope_registry_key]
    simp only [scope_registry_key] at hget
    rw [hget]
  · intro url hat hget hparse
    simp only [NpmrcConfig.registry_for, extract_scope, if_pos hat, scope_registry_key]
    simp only [scope_registry_key] at hget
    rw [hget]
    simp [hparse]
  · intro r parsed hr hparse
    unfold NpmrcConfig.default_registry
    rw [hr]
    simp [hparse]
  · intro hr
    unfold NpmrcConfig.default_registry
    rw [hr]
    rfl
  · intro r hr hparse
    unfold NpmrcConfig.default_registry
    rw [hr]
    simp [hparse]

/-- Witness for C7: a scoped package resolves through its configured
scope registry; an unscoped package resolves to the default even with
scoped entries present. -/
theorem registry_for_spec_witness :
    (NpmrcConfig.mk none none (some (ConfigData.mk
        [("@myorg:registry", "https://myorg.example")]))).registry_for "@myorg/pkg"
      = Url.mk "https" "" (some "myorg.example") none "/" none none ∧
    (NpmrcConfig.mk none none (some (ConfigData.mk
        [("@myorg:registry", "https://myorg.example")]))).registry_for "plain-pkg"
      = npmjsUrl := by
  constructor
  · exact (registry_for_spec _ "@myorg/pkg").2.1 "https://myorg.example"
      (Url.mk "https" "" (some "myorg.example") none "/" none none)
      (by decide) (by decide) (by decide)
  · exact ((registry_for_spec _ "plain-pkg").1 (by decide)).trans
      ((registry_for_spec _ "plain-pkg").2.2.2.2.2.1 (by decide))

/-! ## Parser line semantics -/

theorem findIdx?_no_eq_append :
    ∀ (k : List Char) (v : List Char) (i : Nat), '=' ∉ k →
      List.findIdx? (fun c => c = '=') (k ++ '=' :: v) i = some (i + k.length) := by
  intro k
  induction k with
  | nil =>
    intro v i _
    simp [List.findIdx?_cons]
  | cons a as ih =>
    intro v i h
    rw [List.cons_append, List.findIdx?_cons]
    rw [if_neg (by
      simp only [decide_eq_true_eq]
      intro hc
      exact h (hc ▸ List.mem_cons_self a as))]
    rw [ih v (i + 1) (fun hm => h (List.mem_cons_of_mem a hm))]
    simp only [List.length_cons]
    congr 1
    omega

/-- C5: the parser always returns the fold of processLine over the
physical lines and never an error; a line that trims to nothing, a
full-line comment, a line without an equals sign, and a line whose
trimmed key is empty are all dropped; otherwise the key is the trimmed
text before the first equals sign and the value the trimmed, env-expanded
text after it (later equals signs retained in the value), inserted with
last-occurrence-wins semantics. -/
theorem parse_npmrc_spec :
    (∀ (env : Env) (content : String),
        parse_npmrc env content
          = Except.ok ((splitOnChar '\n' content.data).foldl (processLine env) [])) ∧
    (∀ (env : Env) (acc : RawConfigMap) (line : List Char),
        trimChars line = [] → processLine env acc line = acc) ∧
    (∀ (env : Env) (acc : RawConfigMap) (line : List Char),
        (trimChars line).head? = some '#' ∨ (trimChars line).head? = some ';' →
        processLine env acc line = acc) ∧
    (∀ (env : Env) (acc : RawConfigMap) (line : List Char),
        '=' ∉ trimChars line → processLine env acc line = acc) ∧
    (∀ (env : Env) (acc : RawConfigMap) (line : List Char) (i : Nat),
        (trimChars line).findIdx? (fun c => c = '=') = some i →
        trimChars ((trimChars line).take i) = [] → processLine env acc line = acc) ∧
    (∀ (env : Env) (acc : RawConfigMap) (k v : List Char), '=' ∉ k →
        trimChars (k ++ '=' :: v) = k ++ '=' :: v →
        (k ++ '=' :: v).head? ≠ some '#' → (k ++ '=' :: v).head? ≠ some ';' →
        trimChars k ≠ [] →
        processLine env acc (k ++ '=' :: v)
          = mapInsert acc (String.mk (trimChars k))
              (expand_env_vars env (String.mk (trimChars v)))) ∧
    (∀ (m : RawConfigMap) (k v : String), mapGet (mapInsert m k v) k = some v) ∧
    (∀ (m : RawConfigMap) (k v k2 : String), k2 ≠ k →
        mapGet (mapInsert m k v) k2 = mapGet m k2) := by
  refine ⟨fun env content => rfl, ?_, ?_, ?_, ?_, ?_, ?_, ?_⟩
  · intro env acc line htrim
    simp only [processLine, htrim]
    rfl
  · intro env acc line hcomment
    simp only [processLine]
    rcases hcomment with hc | hc <;>
      rw [if_neg (by
        rw [List.isEmpty_iff]
        intro h0
        rw [h0] at hc
        cases hc)] <;>
      rw [if_pos (by simp [hc])]
  · intro env acc line hnoeq
    have hfind : (trimChars line).findIdx? (fun c => c = '=') = none := by
      rw [List.findIdx?_eq_none_iff]
      intro c hc
      simp only [decide_eq_false_iff_not]
      intro he
      exact hnoeq (he ▸ hc)
    simp only [processLine, hfind]
    split
    · rfl
    · split
      · rfl
      · rfl
  · intro env acc line i hfind hkey
    simp only [processLine, hfind, hkey]
    split
    · rfl
    · split
      · rfl
      · simp [hkey]
  · intro env acc k v hk htrim hh1 hh2 hkey
    simp only [processLine, htrim]
    rw [if_neg (by simp)]
    rw [if_neg (by
      simp only [Bool.or_eq_true, decide_eq_true_eq]
      rintro (hcontra | hcontra)
      · exact hh1 hcontra
      · exact hh2 hcontra)]
    rw [findIdx?_no_eq_append k v 0 hk]
    simp only [Nat.zero_add]
    rw [show (k ++ '=' :: v).take k.length = k from List.take_left k ('=' :: v)]
    rw [show (k ++ '=' :: v).drop (k.length + 1) = v by
      rw [show k.length + 1 = (k ++ ['=']).length by simp]
      rw [show k ++ '=' :: v = (k ++ ['=']) ++ v by simp]
      exact List.drop_left (k ++ ['=']) v]
    rw [if_neg (by simp [hkey])]
  · intro m k v
    simp [mapInsert, mapGet]
  · intro m k v k2 hne
    simp only [mapInsert, mapGet]
    rw [if_neg (fun hc => hne hc.symm)]
    induction m with
    | nil => rfl
    | cons p rest ih =>
      by_cases hp : p.1 = k
      · rw [show List.filter (fun q => q.1 ≠ k) (p :: rest)
            = List.filter (fun q => q.1 ≠ k) rest by
          simp [List.filter_cons, hp]]
        rw [ih]
        rw [show mapGet (p :: rest) k2 = mapGet rest k2 by
          simp only [mapGet]
          rw [if_neg (fun hc => hne ((hp ▸ hc : k = k2)).symm)]]
      · rw [show List.filter (fun q => q.1 ≠ k) (p :: rest)
            = p :: List.filter (fun q => q.1 ≠ k) rest by
          simp [List.filter_cons, hp]]
        simp only [mapGet]
        split
        · rfl
        · exact ih

/-- Witness for C5: a concrete parse with comments, droppable lines,
retained equals signs and a duplicate key resolved last-wins. -/
theorem parse_npmrc_spec_witness :
    parse_npmrc (fun _ => none) "x"
      = Except.ok ((splitOnChar '\n' "x".data).foldl (processLine (fun _ => none)) []) ∧
    processLine (fun _ => none) [] "# note".data = [] ∧
    processLine (fun _ => none) [] "no equals here".data = [] ∧
    processLine (fun _ => none) [] " = v".data = [] ∧
    processLine (fun _ => none) [] ("key ".data ++ '=' :: " a=b".data)
      = mapInsert [] "key" "a=b" ∧
    mapGet (mapInsert (mapInsert [] "key" "first") "key" "second") "key" = some "second" := by
  refine ⟨parse_npmrc_spec.1 (fun _ => none) "x", ?_, ?_, ?_, ?_, ?_⟩
  · exact parse_npmrc_spec.2.2.1 (fun _ => none) [] "# note".data (Or.inl (by decide))
  · exact parse_npmrc_spec.2.2.2.1 (fun _ => none) [] "no equals here".data (by decide)
  · exact parse_npmrc_spec.2.2.2.2.1 (fun _ => none) [] " = v".data 0 (by decide) (by decide)
  · exact (parse_npmrc_spec.2.2.2.2.2.1 (fun _ => none) [] "key ".data " a=b".data
      (by decide) (by decide) (by decide) (by decide) (by decide)).trans (by decide)
  · exact parse_npmrc_spec.2.2.2.2.2.2.1 (mapInsert [] "key" "first") "key" "second"

/-! ## Environment expansion semantics -/

theorem takeWhile_all_append (p : Char → Bool) (l1 : List Char) (d : Char) (t : List Char)
    (h1 : ∀ c ∈ l1, p c = true) (hd : p d = false) :
    (l1 ++ d :: t).takeWhile p = l1 := by
  rw [List.takeWhile_append, List.takeWhile_eq_self_iff.mpr h1, if_pos rfl]
  rw [List.takeWhile_cons, hd]
  simp

theorem dropWhile_all_append (p : Char → Bool) (l1 : List Char) (d : Char) (t : List Char)
    (h1 : ∀ c ∈ l1, p c = true) (hd : p d = false) :
    (l1 ++ d :: t).dropWhile p = d :: t := by
  rw [List.dropWhile_append, List.dropWhile_eq_nil_iff.mpr h1]
  rw [if_pos (show ([] : List Char).isEmpty = true from rfl)]
  rw [List.dropWhile_cons, hd]
  simp

theorem replicate_backslash_all (k : Nat) :
    ∀ c ∈ List.replicate k '\\', decide (c = '\\') = true := by
  intro c hc
  rw [List.eq_of_mem_replicate hc]
  decide

theorem tryMatch_at (k : Nat) (name : List Char) (hasMod : Bool) (rest : List Char)
    (hne : name ≠ []) (hnc : ∀ ch ∈ name, nameChar ch = true) :
    tryMatch (List.replicate k '\\' ++ '$' :: '{' ::
        (name ++ (if hasMod then ['?', '}'] else ['}']) ++ rest))
      = some (k, name, hasMod, rest) := by
  cases hasMod
  · have hassoc : name ++ ['}'] ++ rest = name ++ '}' :: rest := by simp
    rw [if_neg (by simp), hassoc]
    have htakeB := takeWhile_all_append (fun x => x = '\\') (List.replicate k '\\') '$'
      ('{' :: (name ++ '}' :: rest)) (replicate_backslash_all k) (by decide)
    have hdropB := dropWhile_all_append (fun x => x = '\\') (List.replicate k '\\') '$'
      ('{' :: (name ++ '}' :: rest)) (replicate_backslash_all k) (by decide)
    have htakeN := takeWhile_all_append nameChar name '}' rest hnc (by decide)
    have hdropN := dropWhile_all_append nameChar name '}' rest hnc (by decide)
    simp only [tryMatch, htakeB, hdropB, htakeN, hdropN, List.length_replicate]
    simp [hne]
  · have hassoc : name ++ ['?', '}'] ++ rest = name ++ '?' :: '}' :: rest := by simp
    rw [if_pos rfl, hassoc]
    have htakeB := takeWhile_all_append (fun x => x = '\\') (List.replicate k '\\') '$'
      ('{' :: (name ++ '?' :: '}' :: rest)) (replicate_backslash_all k) (by decide)
    have hdropB := dropWhile_all_append (fun x => x = '\\') (List.replicate k '\\') '$'
      ('{' :: (name ++ '?' :: '}' :: rest)) (replicate_backslash_all k) (by decide)
    have htakeN := takeWhile_all_append nameChar name '?' ('}' :: rest) hnc (by decide)
    have hdropN := dropWhile_all_append nameChar name '?' ('}' :: rest) hnc (by decide)
    simp only [tryMatch, htakeB, hdropB, htakeN, hdropN, List.length_replicate]
    simp [hne]

theorem scanExpandAux_congr (env : Env) :
    ∀ (f1 f2 : Nat) (s : List Char), s.length ≤ f1 → s.length ≤ f2 →
      scanExpandAux env f1 s = scanExpandAux env f2 s := by
  intro f1
  induction f1 with
  | zero =>
    intro f2 s h1 h2
    have hs : s = [] := by
      cases s with
      | nil => rfl
      | cons a t => simp at h1
    subst hs
    cases f2 <;> rfl
  | succ f ih =>
    intro f2 s h1 h2
    cases s with
    | nil => cases f2 <;> rfl
    | cons c t =>
      cases f2 with
      | zero => simp at h2
      | succ g =>
        have h1b : t.length + 1 ≤ f + 1 := by simpa using h1
        have h2b : t.length + 1 ≤ g + 1 := by simpa using h2
        rcases hm : tryMatch (c :: t) with _ | ⟨k, nm, md, rem⟩
        · simp only [scanExpandAux, hm]
          rw [ih g t (by omega) (by omega)]
        · have hlt := tryMatchConsumes _ _ _ _ _ hm
          have hlt2 : rem.length < t.length + 1 := by simpa using hlt
          simp only [scanExpandAux, hm]
          rw [ih g rem (by omega) (by omega)]

theorem scanExpandAux_eq (env : Env) (f : Nat) (s : List Char) (h : s.length ≤ f) :
    scanExpandAux env f s = scanExpand env s :=
  scanExpandAux_congr env f s.length s h (Nat.le_refl _)

theorem scanExpand_match (env : Env) (s : List Char) (k : Nat) (nm : List Char) (md : Bool)
    (rem : List Char) (hm : tryMatch s = some (k, nm, md, rem)) :
    scanExpand env s = replacementFor env k nm md ++ scanExpand env rem := by
  have hlt := tryMatchConsumes s k nm md rem hm
  cases s with
  | nil => simp at hlt
  | cons c t =>
    show scanExpandAux env (c :: t).length (c :: t) = _
    simp only [List.length_cons, scanExpandAux, hm]
    rw [scanExpandAux_eq env t.length rem (by simp at hlt; omega)]

theorem tryMatch_some_rbrace (s : List Char) (k : Nat) (nm : List Char) (md : Bool)
    (rem : List Char) (h : tryMatch s = some (k, nm, md, rem)) : '}' ∈ s := by
  unfold tryMatch at h
  split at h
  next s2 heq =>
    have hsub : ('$' :: '{' :: s2) ⊆ s := by
      rw [← heq]
      exact (List.dropWhile_sublist _).subset
    split at h
    · exact absurd h (by simp)
    · have hsub2 : s2.dropWhile nameChar ⊆ s2 := (List.dropWhile_sublist _).subset
      split at h
      next s4 heq2 =>
        have : '}' ∈ s2 := hsub2 (heq2 ▸ List.mem_cons_self '}' s4)
        exact hsub (by simp [this])
      next s4 heq2 =>
        have : '}' ∈ s2 := hsub2 (heq2 ▸ List.mem_cons_of_mem '?' (List.mem_cons_self '}' s4))
        exact hsub (by simp [this])
      next => exact absurd h (by simp)
  next => exact absurd h (by simp)

theorem tryMatch_none_of_head (c : Char) (t : List Char) (h1 : c ≠ '\\') (h2 : c ≠ '$') :
    tryMatch (c :: t) = none := by
  unfold tryMatch
  rw [List.dropWhile_cons]
  rw [if_neg (by simp [h1])]
  split
  next s2 heq =>
    injection heq with he _
    exact absurd he h2
  next => rfl

theorem tryMatch_none_bare_dollar (rest : List Char) (h : rest.head? ≠ some '{') :
    tryMatch ('$' :: rest) = none := by
  unfold tryMatch
  rw [List.dropWhile_cons]
  rw [if_neg (by decide)]
  split
  next s2 heq =>
    injection heq with _ he2
    exact absurd (by rw [he2]; rfl) h
  next => rfl

theorem scanExpandAux_no_rbrace (env : Env) :
    ∀ (f : Nat) (s : List Char), '}' ∉ s → scanExpandAux env f s = s := by
  intro f
  induction f with
  | zero => intro s _; rfl
  | succ f ih =>
    intro s hnb
    cases s with
    | nil => rfl
    | cons c t =>
      have hm : tryMatch (c :: t) = none := by
        rcases htm : tryMatch (c :: t) with _ | ⟨k, nm, md, rem⟩
        · rfl
        · exact absurd (tryMatch_some_rbrace _ _ _ _ _ htm) hnb
      simp only [scanExpandAux, hm]
      rw [ih t (fun hmem => hnb (List.mem_cons_of_mem c hmem))]

/-- C4: the scanner replaces a backslash run followed by a dollar-brace
variable reference as one match: an odd run escapes (half the backslashes
and the literal reference are emitted, modifier included, with no
substitution); an even run emits half the backslashes and then the value
when the variable is set, the literal reference when unset without the
modifier, and nothing when unset with it; scanning resumes after the
match, so substituted values are never rescanned; and any text without a
closing brace, in particular a bare dollar sign or an unterminated
reference, is left untouched. -/
theorem expand_env_vars_spec :
    (∀ (env : Env) (k : Nat) (name : List Char) (hasMod : Bool) (rest : List Char),
        name ≠ [] → (∀ ch ∈ name, nameChar ch = true) →
        scanExpand env (List.replicate k '\\' ++ '$' :: '{' ::
            (name ++ (if hasMod then ['?', '}'] else ['}']) ++ rest))
          = replacementFor env k name hasMod ++ scanExpand env rest) ∧
    (∀ (env : Env) (k : Nat) (name : List Char) (hasMod : Bool), k % 2 = 1 →
        replacementFor env k name hasMod
          = List.replicate (k / 2) '\\' ++ '$' :: '{' :: name
              ++ (if hasMod then ['?', '}'] else ['}'])) ∧
    (∀ (env : Env) (k : Nat) (name : List Char) (hasMod : Bool) (val : String),
        k % 2 = 0 → env (String.mk name) = some val →
        replacementFor env k name hasMod = List.replicate (k / 2) '\\' ++ val.data) ∧
    (∀ (env : Env) (k : Nat) (name : List Char), k % 2 = 0 →
        env (String.mk name) = none →
        replacementFor env k name false
          = List.replicate (k / 2) '\\' ++ '$' :: '{' :: name ++ ['}']) ∧
    (∀ (env : Env) (k : Nat) (name : List Char), k % 2 = 0 →
        env (String.mk name) = none →
        replacementFor env k name true = List.replicate (k / 2) '\\') ∧
    (∀ (env : Env) (s : List Char), '}' ∉ s → scanExpand env s = s) ∧
    (∀ (env : Env) (c : Char) (rest : List Char), c ≠ '\\' → c ≠ '$' →
        scanExpand env (c :: rest) = c :: scanExpand env rest) ∧
    (∀ (env : Env) (rest : List Char), rest.head? ≠ some '{' →
        scanExpand env ('$' :: rest) = '$' :: scanExpand env rest) := by
  refine ⟨?_, ?_, ?_, ?_, ?_, ?_, ?_, ?_⟩
  · intro env k name hasMod rest hne hnc
    exact scanExpand_match env _ k name hasMod rest (tryMatch_at k name hasMod rest hne hnc)
  · intro env k name hasMod hodd
    unfold replacementFor
    rw [if_pos hodd]
  · intro env k name hasMod val heven henv
    unfold replacementFor
    rw [if_neg (by omega), henv]
  · intro env k name heven henv
    unfold replacementFor
    rw [if_neg (by omega), henv]
    rfl
  · intro env k name heven henv
    unfold replacementFor
    rw [if_neg (by omega), henv]
    rfl
  · intro env s hnb
    exact scanExpandAux_no_rbrace env s.length s hnb
  · intro env c rest h1 h2
    show scanExpandAux env (c :: rest).length (c :: rest) = _
    simp only [List.length_cons, scanExpandAux, tryMatch_none_of_head c rest h1 h2]
    rfl
  · intro env rest h
    show scanExpandAux env ('$' :: rest).length ('$' :: rest) = _
    simp only [List.length_cons, scanExpandAux, tryMatch_none_bare_dollar rest h]
    rfl

/-- Witness for C4: the spec's escaping examples with FOO set to bar (one
backslash keeps the literal, two backslashes yield a backslash and the
value), the optional-modifier empty expansion, and an untouched
unterminated reference. -/
theorem expand_env_vars_spec_witness :
    scanExpand (fun n => if n = "FOO" then some "bar" else none)
        (List.replicate 1 '\\' ++ '$' :: '{' :: ("FOO".data ++ ['}'] ++ []))
      = "${FOO}".data ∧
    scanExpand (fun n => if n = "FOO" then some "bar" else none)
        (List.replicate 2 '\\' ++ '$' :: '{' :: ("FOO".data ++ ['}'] ++ []))
      = "\\bar".data ∧
    scanExpand (fun _ => none)
        (List.replicate 0 '\\' ++ '$' :: '{' :: ("UNDEF".data ++ ['?', '}'] ++ []))
      = [] ∧
    scanExpand (fun _ => none) "$\x7bUNDEF".data = "$\x7bUNDEF".data := by
  refine ⟨?_, ?_, ?_, ?_⟩
  · exact (expand_env_vars_spec.1 (fun n => if n = "FOO" then some "bar" else none)
      1 "FOO".data false [] (by decide) (by decide)).trans (by decide)
  · exact (expand_env_vars_spec.1 (fun n => if n = "FOO" then some "bar" else none)
      2 "FOO".data false [] (by decide) (by decide)).trans (by decide)
  · exact (expand_env_vars_spec.1 (fun _ => none)
      0 "UNDEF".data true [] (by decide) (by decide)).trans (by decide)
  · exact expand_env_vars_spec.2.2.2.2.2.1 (fun _ => none) "$\x7bUNDEF".data (by decide)

end Npmrc


